import Mathlib

/-!
Verification of the append-only incremental Merkle tree in `src/src/main.rs`.

The repository stores a tree as `levels: Vec<Vec<Hash>>` (level 0 = leaves,
topmost level = root level) and exposes `new`, `append`, `root`.  Appending
hashes the key, pushes the leaf onto level 0, then rebuilds every level above
bottom-up, pairing adjacent digests and duplicating a lone trailing digest,
truncating stale levels once a level of size 1 is reached.

The SHA-256 primitive itself is out of scope of the design (spec §1, §6: an
opaque collision-resistant function), so digests are modelled as the free
algebra generated by the two ways the program ever produces a digest: hashing
the 8-byte big-endian encoding of a key (`ofKey`) and hashing the 64-byte
concatenation of two digests (`ofPair`).  Every property checked here is a
structural property of the tree algorithm, independent of actual SHA-256
output bytes.
-/

/-- Model of `type Hash = [u8; 32]` together with the opaque SHA-256 primitive:
a digest is either the hash of the bytes of a key or the hash of the concatenation
of two digests. -/
inductive Hash : Type where
  | ofKey : Nat → Hash
  | ofPair : Hash → Hash → Hash
deriving DecidableEq

/-- Model of `type Key = u64`.  No arithmetic is ever performed on a key — it
is only serialized (injectively) and hashed — so keys are modelled as `Nat`. -/
abbrev Key := Nat

/-- Model of `fn hash_key(key: Key) -> Hash`: SHA-256 of the 8-byte
big-endian encoding of the key, under the opaque-hash model. -/
def hash_key (key : Key) : Hash := Hash.ofKey key

/-- Model of `fn hash_internal(left: Hash, right: Hash) -> Hash`: SHA-256 of
`left || right`, under the opaque-hash model. -/
def hash_internal (left right : Hash) : Hash := Hash.ofPair left right

/-- Model of `struct MerkleTree { levels: Vec<Vec<Hash>> }`. -/
structure MerkleTree : Type where
  levels : List (List Hash)
deriving DecidableEq

/-- Model of `MerkleTree::new`: the empty tree. -/
def MerkleTree.new : MerkleTree := ⟨[]⟩

/-- Model of the inner `while i < below.len()` loop of `MerkleTree::append`:
build the next level from `below` by hashing adjacent pairs (`i += 2`),
duplicating the left element when `i + 1` is out of bounds (odd trailing
element). -/
def buildNext : List Hash → List Hash
  | [] => []
  | [x] => [hash_internal x x]
  | x :: y :: rest => hash_internal x y :: buildNext rest

/-- Model of the level insertion step of `MerkleTree::append`:
`if self.levels.len() > level_index { self.levels[level_index] = next_level }
else { self.levels.push(next_level) }`. -/
def setOrPush (levels : List (List Hash)) (i : Nat) (lvl : List Hash) :
    List (List Hash) :=
  if i < levels.length then levels.set i lvl else levels ++ [lvl]

/-- Model of the outer `loop` of `MerkleTree::append`, made total with fuel:
read `levels[level_index - 1]` (a `none` read is the Rust index panic); if that
level has length 1, truncate the stale levels at and above `level_index` and
stop; otherwise write `buildNext` of it at `level_index` and move up one level.
`none` therefore models a panic or exhausted fuel (divergence). -/
def rebuildLoop : Nat → List (List Hash) → Nat → Option (List (List Hash))
  | 0, _, _ => none
  | fuel + 1, levels, levelIndex =>
    (levels[levelIndex - 1]?).bind fun below =>
      if below.length = 1 then
        some (levels.take levelIndex)
      else
        rebuildLoop fuel (setOrPush levels levelIndex (buildNext below))
          (levelIndex + 1)

/-- Model of `MerkleTree::append`: hash the key, push the leaf onto level 0
(creating level 0 if the tree is empty), then run the rebuild loop starting at
level index 1.  The fuel — the length of the updated leaf level — is proved
sufficient below (`C7_append_total`), so `none` never actually occurs. -/
def MerkleTree.append (t : MerkleTree) (key : Key) : Option MerkleTree :=
  let leaf := hash_key key
  let levels0 :=
    match t.levels with
    | [] => [[leaf]]
    | l0 :: rest => (l0 ++ [leaf]) :: rest
  (rebuildLoop (levels0.headD []).length levels0 1).map MerkleTree.mk

/-- Model of `MerkleTree::root`: the first digest of the last level, `none` for
an empty tree or (defensively, as in the source) an empty last level. -/
def MerkleTree.root (t : MerkleTree) : Option Hash :=
  t.levels.getLast?.bind List.head?

/-- Appending a whole key sequence in order, propagating the `Option` of the fuel
model. -/
def appendAll : MerkleTree → List Key → Option MerkleTree
  | t, [] => some t
  | t, k :: ks => (t.append k).bind (fun t1 => appendAll t1 ks)

/-- Model of the `&self` receiver of `MerkleTree::root` as explicit state
passing: one call returns the value together with the post-call state, which
is the receiver itself since the method only reads. -/
def MerkleTree.rootCall (t : MerkleTree) : Option Hash × MerkleTree :=
  (t.root, t)

/-- A sequence of `n` consecutive `root` calls with no intervening `append`:
the list of returned values together with the final state. -/
def rootCalls : MerkleTree → Nat → List (Option Hash) × MerkleTree
  | t, 0 => ([], t)
  | t, n + 1 =>
    let r := t.rootCall
    let rest := rootCalls r.2 n
    (r.1 :: rest.1, rest.2)

/-- Modelled from the spec (§4.2 plus the level invariants of §3): the batch level
list over a leaf level `L` — `L` itself, then the pairwise rebuild of each
level, stopping at the first level of length 1.  This is the spec-side target
for the refinement claim: the level list "as if rebuilt from scratch from the
leaf list". -/
def buildLevels (L : List Hash) : List (List Hash) :=
  if L.length ≤ 1 then [L]
  else L :: buildLevels (buildNext L)
termination_by L.length
decreasing_by
  have hlen : ∀ M : List Hash, (buildNext M).length = (M.length + 1) / 2 := by
    intro M
    induction M using buildNext.induct with
    | case1 => simp [buildNext]
    | case2 _ => simp [buildNext]
    | case3 x y rest ih => simp [buildNext, ih]; omega
  simp only [hlen]
  omega

/-- Modelled from the spec (§3): the level list determined by the key sequence
alone — empty for no keys, otherwise the batch build over the leaf digests in
append order. -/
def specLevels (keys : List Key) : List (List Hash) :=
  match keys with
  | [] => []
  | _ :: _ => buildLevels (keys.map hash_key)

/-! ## Helper lemmas -/

/-- One rebuild pass halves the level size, rounding up. -/
theorem buildNext_length (L : List Hash) :
    (buildNext L).length = (L.length + 1) / 2 := by
  induction L using buildNext.induct with
  | case1 => simp [buildNext]
  | case2 _ => simp [buildNext]
  | case3 x y rest ih => simp [buildNext, ih]; omega

/-- One rebuild pass over a non-empty level is non-empty. -/
theorem buildNext_ne_nil {L : List Hash} (h : L ≠ []) : buildNext L ≠ [] := by
  intro hc
  apply h
  have hlen := buildNext_length L
  rw [hc] at hlen
  simp only [List.length_nil] at hlen
  exact List.length_eq_zero.mp (by omega)

/-- Unfolding equation for the batch level build. -/
theorem buildLevels_eq (L : List Hash) :
    buildLevels L =
      if L.length ≤ 1 then [L] else L :: buildLevels (buildNext L) := by
  rw [buildLevels]

/-- The batch level list always starts with the leaf level it was built from. -/
theorem buildLevels_cons (L : List Hash) :
    ∃ rest, buildLevels L = L :: rest := by
  rw [buildLevels_eq]
  split
  · exact ⟨[], rfl⟩
  · exact ⟨_, rfl⟩

/-- Writing at an index bounded by the length lands at that index. -/
theorem setOrPush_getElem (levels : List (List Hash)) (i : Nat)
    (lvl : List Hash) (h : i ≤ levels.length) :
    (setOrPush levels i lvl)[i]? = some lvl := by
  unfold setOrPush
  split
  · exact List.getElem?_set_self (by assumption)
  · rename_i hge
    have heq : i = levels.length := Nat.le_antisymm h (Nat.le_of_not_lt hge)
    subst heq
    exact List.getElem?_concat_length levels lvl

/-- Writing at an index bounded by the length keeps that index in range. -/
theorem setOrPush_length (levels : List (List Hash)) (i : Nat)
    (lvl : List Hash) :
    (setOrPush levels i lvl).length =
      if i < levels.length then levels.length else levels.length + 1 := by
  unfold setOrPush
  split <;> simp

/-- The prefix below and including a written level: the untouched levels below,
then the written level. -/
theorem setOrPush_take (levels : List (List Hash)) (i : Nat) (lvl : List Hash)
    (h : i ≤ levels.length) :
    (setOrPush levels i lvl).take (i + 1) = levels.take i ++ [lvl] := by
  unfold setOrPush
  split
  · rename_i hlt
    rw [List.set_eq_take_append_cons_drop, if_pos hlt,
      List.take_append_eq_append_take]
    have hlen : (List.take i levels).length = i := by
      simp [List.length_take]; omega
    rw [hlen, show i + 1 - i = 1 by omega,
      List.take_of_length_le (by rw [hlen]; omega)]
    simp
  · rename_i hge
    have heq : i = levels.length := Nat.le_antisymm h (Nat.le_of_not_lt hge)
    subst heq
    rw [List.take_of_length_le (by simp), List.take_length]

/-- The rebuild loop, run from a level index whose level below is non-empty and
already in place, finishes and returns the finalized prefix below that index
followed by all the batch-built levels above the level below.  This is the
loop invariant of `MerkleTree::append`: one fuel unit per iteration, and fuel
`below.length` always suffices because each pass strictly shrinks the level. -/
theorem rebuildLoop_spec :
    ∀ (fuel levelIndex : Nat) (levels : List (List Hash)) (below : List Hash),
      levels[levelIndex - 1]? = some below → below ≠ [] →
      1 ≤ levelIndex → levelIndex ≤ levels.length →
      below.length ≤ fuel →
      rebuildLoop fuel levels levelIndex =
        some (levels.take levelIndex ++ (buildLevels below).tail)
  | 0, _, _, below, _, hne, _, _, hfuel =>
    absurd (List.length_eq_zero.mp (Nat.le_zero.mp hfuel)) hne
  | fuel + 1, levelIndex, levels, below, hread, hne, h1, hle, hfuel => by
    rw [rebuildLoop, hread, Option.some_bind]
    by_cases hone : below.length = 1
    · rw [if_pos hone, buildLevels_eq, if_pos (by omega)]
      simp
    · rw [if_neg hone]
      have hlen2 : 2 ≤ below.length := by
        have : below.length ≠ 0 := fun hc => hne (List.length_eq_zero.mp hc)
        omega
      have hnext := buildNext_length below
      rw [rebuildLoop_spec fuel (levelIndex + 1)
            (setOrPush levels levelIndex (buildNext below)) (buildNext below)
            (setOrPush_getElem levels levelIndex (buildNext below) hle)
            (buildNext_ne_nil hne) (by omega)
            (by rw [setOrPush_length]; split <;> omega)
            (by omega)]
      rw [setOrPush_take levels levelIndex (buildNext below) hle]
      rw [buildLevels_eq below, if_neg (by omega)]
      obtain ⟨rest, hrest⟩ := buildLevels_cons (buildNext below)
      rw [hrest]
      simp

/-- One `append` on a tree whose levels are the batch build over leaves `L`
yields the batch build over `L` extended with the new leaf. -/
theorem append_buildLevels (L : List Hash) (k : Key) :
    MerkleTree.append ⟨buildLevels L⟩ k =
      some ⟨buildLevels (L ++ [hash_key k])⟩ := by
  obtain ⟨rest, hrest⟩ := buildLevels_cons L
  simp only [MerkleTree.append, hrest]
  rw [rebuildLoop_spec ((((L ++ [hash_key k]) :: rest).headD []).length) 1
        ((L ++ [hash_key k]) :: rest) (L ++ [hash_key k])
        List.getElem?_cons_zero (by simp) (by omega) (by simp)
        (by simp)]
  obtain ⟨rest2, hrest2⟩ := buildLevels_cons (L ++ [hash_key k])
  rw [hrest2]
  simp

/-- Appending a key sequence to a batch-built tree extends its leaf level by
the key digests, in order. -/
theorem appendAll_buildLevels (keys : List Key) (L : List Hash) :
    appendAll ⟨buildLevels L⟩ keys =
      some ⟨buildLevels (L ++ keys.map hash_key)⟩ := by
  induction keys generalizing L with
  | nil => simp [appendAll]
  | cons k ks ih =>
    rw [appendAll, append_buildLevels L k, Option.some_bind,
      ih (L ++ [hash_key k])]
    simp

/-- Appending any key sequence to the empty tree succeeds and produces exactly
the levels determined by the key sequence alone. -/
theorem appendAll_new_eq (keys : List Key) :
    appendAll MerkleTree.new keys = some ⟨specLevels keys⟩ := by
  match keys with
  | [] => rfl
  | k :: ks =>
    have h1 : MerkleTree.new.append k = some ⟨buildLevels [hash_key k]⟩ := by
      rw [show buildLevels [hash_key k] = [[hash_key k]] by
        rw [buildLevels_eq]; simp]
      rfl
    rw [appendAll, h1, Option.some_bind, appendAll_buildLevels ks [hash_key k]]
    rw [specLevels]
    simp

/-- Every level of the batch build other than the topmost is followed by its
own pairwise rebuild. -/
theorem buildLevels_chain (L : List Hash) :
    ∀ (i : Nat) (l l' : List Hash),
      (buildLevels L)[i]? = some l → (buildLevels L)[i + 1]? = some l' →
      l' = buildNext l := by
  induction L using buildLevels.induct with
  | case1 L hle =>
    intro i l l' h1 h2
    rw [buildLevels_eq, if_pos hle, List.getElem?_cons_succ] at h2
    simp at h2
  | case2 L hgt ih =>
    intro i l l' h1 h2
    rw [buildLevels_eq, if_neg hgt] at h1 h2
    match i with
    | 0 =>
      rw [List.getElem?_cons_zero] at h1
      rw [List.getElem?_cons_succ] at h2
      obtain ⟨rest, hrest⟩ := buildLevels_cons (buildNext L)
      rw [hrest, List.getElem?_cons_zero] at h2
      injection h1 with h1
      injection h2 with h2
      rw [← h1, ← h2]
    | i + 1 =>
      rw [List.getElem?_cons_succ] at h1 h2
      exact ih i l l' h1 h2

/-- The topmost level of the batch build over a non-empty leaf level is a
single digest. -/
theorem buildLevels_getLast (L : List Hash) :
    L ≠ [] →
    ∃ top, (buildLevels L).getLast? = some top ∧ top.length = 1 := by
  induction L using buildLevels.induct with
  | case1 L hle =>
    intro hL
    rw [buildLevels_eq, if_pos hle]
    refine ⟨L, by simp, ?_⟩
    have : L.length ≠ 0 := fun hc => hL (List.length_eq_zero.mp hc)
    omega
  | case2 L hgt ih =>
    intro _
    rw [buildLevels_eq, if_neg hgt]
    have hLne : L ≠ [] := by intro hc; subst hc; simp at hgt
    obtain ⟨top, htop, hlen⟩ := ih (buildNext_ne_nil hLne)
    refine ⟨top, ?_, hlen⟩
    obtain ⟨rest, hrest⟩ := buildLevels_cons (buildNext L)
    rw [hrest] at htop ⊢
    rw [List.getLast?_cons_cons]
    exact htop

/-- Every level of the batch build other than the topmost has at least two
digests: no stale length-1 level sits below (or above) the root level. -/
theorem buildLevels_inner_length (L : List Hash) :
    ∀ (i : Nat) (l : List Hash), (buildLevels L)[i]? = some l →
      i + 1 < (buildLevels L).length → 2 ≤ l.length := by
  induction L using buildLevels.induct with
  | case1 L hle =>
    intro i l h1 h2
    rw [buildLevels_eq, if_pos hle] at h2
    simp at h2
  | case2 L hgt ih =>
    intro i l h1 h2
    rw [buildLevels_eq, if_neg hgt] at h1 h2
    match i with
    | 0 =>
      rw [List.getElem?_cons_zero] at h1
      injection h1 with h1
      rw [← h1]
      omega
    | i + 1 =>
      rw [List.getElem?_cons_succ] at h1
      rw [List.length_cons] at h2
      exact ih i l h1 (by omega)

/-- The number of levels of the batch build is the ceiling base-2 logarithm of
the leaf count, plus one. -/
theorem buildLevels_length_clog (L : List Hash) :
    L ≠ [] → (buildLevels L).length = Nat.clog 2 L.length + 1 := by
  induction L using buildLevels.induct with
  | case1 L hle =>
    intro hL
    rw [buildLevels_eq, if_pos hle]
    have h1 : L.length = 1 := by
      have : L.length ≠ 0 := fun hc => hL (List.length_eq_zero.mp hc)
      omega
    rw [h1]
    simp
  | case2 L hgt ih =>
    intro _
    rw [buildLevels_eq, if_neg hgt]
    have h2 : 2 ≤ L.length := by omega
    have hLne : L ≠ [] := by intro hc; subst hc; simp at hgt
    rw [List.length_cons, ih (buildNext_ne_nil hLne), buildNext_length,
      Nat.clog_of_two_le (by omega) h2,
      show L.length + 2 - 1 = L.length + 1 by omega]

/-- The root accessor on a batch-built tree over a non-empty leaf level
returns a digest: the single element of the topmost level. -/
theorem root_buildLevels (L : List Hash) (hL : L ≠ []) :
    ∃ top, MerkleTree.root ⟨buildLevels L⟩ = some top := by
  obtain ⟨topl, htopl, hlen⟩ := buildLevels_getLast L hL
  obtain ⟨h, hh⟩ := List.length_eq_one.mp hlen
  refine ⟨h, ?_⟩
  rw [MerkleTree.root]
  show (buildLevels L).getLast?.bind List.head? = some h
  rw [htopl, Option.some_bind, hh]
  rfl

/-! ## Claims -/

/-- C1, amended (the key sequence must be non-empty: appending the empty
sequence leaves the level list of the newly created tree empty): for every tree
obtained by appending a non-empty finite sequence of keys to a newly created
tree, the level list is non-empty, the length of each level above another is
the ceiling of half the length of the level below, the topmost level has
length exactly 1, and no stale level is retained above the root level: every
level other than the topmost has length at least 2. -/
theorem C1_no_stale_levels (keys : List Key) (hne : keys ≠ [])
    (t : MerkleTree) (happ : appendAll MerkleTree.new keys = some t) :
    t.levels ≠ [] ∧
    (∀ (i : Nat) (l l' : List Hash),
      t.levels[i]? = some l → t.levels[i + 1]? = some l' →
        l'.length = (l.length + 1) / 2) ∧
    (∃ top, t.levels.getLast? = some top ∧ top.length = 1) ∧
    (∀ (i : Nat) (l : List Hash),
      t.levels[i]? = some l → i + 1 < t.levels.length → 2 ≤ l.length) := by
  rw [appendAll_new_eq keys] at happ
  injection happ with happ
  subst happ
  obtain ⟨k, ks, rfl⟩ := List.exists_cons_of_ne_nil hne
  show (buildLevels ((k :: ks).map hash_key)) ≠ [] ∧ _ ∧ _ ∧ _
  refine ⟨?_, ?_, ?_, ?_⟩
  · rw [buildLevels_eq]
    split <;> simp
  · intro i l l' h1 h2
    rw [buildLevels_chain ((k :: ks).map hash_key) i l l' h1 h2,
      buildNext_length]
  · exact buildLevels_getLast ((k :: ks).map hash_key) (by simp)
  · exact buildLevels_inner_length ((k :: ks).map hash_key)

/-- C1 counterexample: the empty sequence is a finite sequence of u64 keys,
and the tree obtained by appending it to a newly created tree has an empty
level list, contradicting "the level list is non-empty" (and there is no
topmost level of length 1). -/
theorem C1_counterexample :
    appendAll MerkleTree.new [] = some MerkleTree.new ∧
    MerkleTree.new.levels = [] :=
  ⟨rfl, rfl⟩

/-- C1 witness: the amended invariant instantiated at the concrete key
sequence `[0]`. -/
theorem C1_witness :
    ([0] : List Key) ≠ [] ∧
    appendAll MerkleTree.new [0] = some ⟨[[Hash.ofKey 0]]⟩ ∧
    (MerkleTree.mk [[Hash.ofKey 0]]).levels ≠ [] :=
  ⟨by decide, by decide,
    (C1_no_stale_levels [0] (by decide) ⟨[[Hash.ofKey 0]]⟩ (by decide)).1⟩

/-- C2: appending three keys to a new tree yields root
`digestOfPair(digestOfPair(H k1, H k2), digestOfPair(H k3, H k3))`; in
particular `5, 10, 30` yields that shape, and after only `5, 10` the root is
`hash_internal (hash_key 5) (hash_key 10)`. -/
theorem C2_three_key_root :
    (∀ k1 k2 k3 : Key,
      (appendAll MerkleTree.new [k1, k2, k3]).bind MerkleTree.root =
        some (hash_internal (hash_internal (hash_key k1) (hash_key k2))
          (hash_internal (hash_key k3) (hash_key k3)))) ∧
    (appendAll MerkleTree.new [5, 10]).bind MerkleTree.root =
      some (hash_internal (hash_key 5) (hash_key 10)) ∧
    (appendAll MerkleTree.new [5, 10, 30]).bind MerkleTree.root =
      some (hash_internal (hash_internal (hash_key 5) (hash_key 10))
        (hash_internal (hash_key 30) (hash_key 30))) :=
  ⟨fun _ _ _ => rfl, rfl, rfl⟩

/-- C3: rebuilding a level scans it in consecutive non-overlapping pairs —
the element at pair index `j` of the rebuilt level is
`digestOfPair L[2j] L[2j+1]`, with `L[2j+1]` replaced by `L[2j]` when it does
not exist — and the rebuilt level has length `ceil(len L / 2)`, preserving
pair order. -/
theorem C3_buildNext_pairs (L : List Hash) :
    (buildNext L).length = (L.length + 1) / 2 ∧
    ∀ (j : Nat) (left : Hash), L[2 * j]? = some left →
      (buildNext L)[j]? =
        some (hash_internal left ((L[2 * j + 1]?).getD left)) := by
  refine ⟨buildNext_length L, ?_⟩
  induction L using buildNext.induct with
  | case1 =>
    intro j left h
    simp at h
  | case2 x =>
    intro j left h
    match j with
    | 0 =>
      rw [show 2 * 0 = 0 by omega, List.getElem?_cons_zero] at h
      injection h with h
      subst h
      simp [buildNext]
    | j + 1 =>
      rw [show 2 * (j + 1) = 2 * j + 1 + 1 by omega,
        List.getElem?_cons_succ] at h
      simp at h
  | case3 x y rest ih =>
    intro j left h
    match j with
    | 0 =>
      rw [show 2 * 0 = 0 by omega, List.getElem?_cons_zero] at h
      injection h with h
      subst h
      simp [buildNext]
    | j + 1 =>
      rw [show 2 * (j + 1) = 2 * j + 1 + 1 by omega, List.getElem?_cons_succ,
        List.getElem?_cons_succ] at h
      have hij := ih j left h
      rw [show 2 * (j + 1) + 1 = 2 * j + 1 + 1 + 1 by omega,
        List.getElem?_cons_succ, List.getElem?_cons_succ]
      show (hash_internal x y :: buildNext rest)[j + 1]? = _
      rw [List.getElem?_cons_succ]
      exact hij

/-- C3 witness: the pair formula instantiated at a concrete 3-element level
and pair index 1, where the trailing element is self-duplicated. -/
theorem C3_witness :
    ([Hash.ofKey 0, Hash.ofKey 1, Hash.ofKey 2] : List Hash)[2 * 1]? =
      some (Hash.ofKey 2) ∧
    (buildNext [Hash.ofKey 0, Hash.ofKey 1, Hash.ofKey 2])[1]? =
      some (hash_internal (Hash.ofKey 2)
        ((([Hash.ofKey 0, Hash.ofKey 1, Hash.ofKey 2] :
            List Hash)[2 * 1 + 1]?).getD (Hash.ofKey 2))) ∧
    (buildNext [Hash.ofKey 0, Hash.ofKey 1, Hash.ofKey 2]).length =
      ([Hash.ofKey 0, Hash.ofKey 1, Hash.ofKey 2] : List Hash).length / 2 + 1 :=
  ⟨by decide,
    (C3_buildNext_pairs [Hash.ofKey 0, Hash.ofKey 1, Hash.ofKey 2]).2 1
      (Hash.ofKey 2) (by decide),
    (C3_buildNext_pairs [Hash.ofKey 0, Hash.ofKey 1, Hash.ofKey 2]).1⟩

/-- C4: appending a single key to a newly created tree yields a tree whose
only level holds the digest of that key, whose root is that digest, and which has
exactly one level. -/
theorem C4_single_append :
    ∀ k : Key,
      MerkleTree.new.append k = some ⟨[[hash_key k]]⟩ ∧
      (MerkleTree.new.append k).bind MerkleTree.root = some (hash_key k) ∧
      (MerkleTree.new.append k).map (fun t => t.levels.length) = some 1 :=
  fun _ => ⟨rfl, rfl, rfl⟩

/-- C5: the root of a newly created tree is `none`; after any non-empty
sequence of appends the root is `some` digest. -/
theorem C5_root_option (keys : List Key) (t : MerkleTree) (hne : keys ≠ [])
    (happ : appendAll MerkleTree.new keys = some t) :
    MerkleTree.new.root = none ∧ ∃ h, t.root = some h := by
  refine ⟨rfl, ?_⟩
  rw [appendAll_new_eq keys] at happ
  injection happ with happ
  subst happ
  obtain ⟨k, ks, rfl⟩ := List.exists_cons_of_ne_nil hne
  exact root_buildLevels ((k :: ks).map hash_key) (by simp)

/-- C5 witness: instantiated at the single-key sequence `[0]`. -/
theorem C5_witness :
    ([0] : List Key) ≠ [] ∧
    appendAll MerkleTree.new [0] = some ⟨[[Hash.ofKey 0]]⟩ ∧
    (MerkleTree.new.root = none ∧
      ∃ h, (MerkleTree.mk [[Hash.ofKey 0]]).root = some h) :=
  ⟨by decide, by decide,
    C5_root_option [0] ⟨[[Hash.ofKey 0]]⟩ (by decide) (by decide)⟩

/-- C6: after appending `n ≥ 1` keys to a newly created tree, the number of
levels is `ceil(log2 n) + 1` (with `Nat.clog 2` the ceiling base-2
logarithm, so `n = 1` gives exactly one level). -/
theorem C6_height (keys : List Key) (t : MerkleTree) (hne : keys ≠ [])
    (happ : appendAll MerkleTree.new keys = some t) :
    t.levels.length = Nat.clog 2 keys.length + 1 := by
  rw [appendAll_new_eq keys] at happ
  injection happ with happ
  subst happ
  obtain ⟨k, ks, rfl⟩ := List.exists_cons_of_ne_nil hne
  show (buildLevels ((k :: ks).map hash_key)).length = _
  rw [buildLevels_length_clog ((k :: ks).map hash_key) (by simp),
    List.length_map]

/-- C6 witness: three appended keys give `ceil(log2 3) + 1 = 3` levels. -/
theorem C6_witness :
    ([0, 1, 2] : List Key) ≠ [] ∧
    appendAll MerkleTree.new [0, 1, 2] =
      some ⟨[[Hash.ofKey 0, Hash.ofKey 1, Hash.ofKey 2],
        [Hash.ofPair (Hash.ofKey 0) (Hash.ofKey 1),
          Hash.ofPair (Hash.ofKey 2) (Hash.ofKey 2)],
        [Hash.ofPair (Hash.ofPair (Hash.ofKey 0) (Hash.ofKey 1))
          (Hash.ofPair (Hash.ofKey 2) (Hash.ofKey 2))]]⟩ ∧
    (MerkleTree.mk [[Hash.ofKey 0, Hash.ofKey 1, Hash.ofKey 2],
        [Hash.ofPair (Hash.ofKey 0) (Hash.ofKey 1),
          Hash.ofPair (Hash.ofKey 2) (Hash.ofKey 2)],
        [Hash.ofPair (Hash.ofPair (Hash.ofKey 0) (Hash.ofKey 1))
          (Hash.ofPair (Hash.ofKey 2) (Hash.ofKey 2))]]).levels.length =
      Nat.clog 2 3 + 1 :=
  ⟨by decide, by decide,
    C6_height [0, 1, 2] _ (by decide) (by decide)⟩

/-- C7: `append` is total — for every tree state (in particular every
reachable one) and every key it returns a result: the fuel suffices and every
container index read during the rebuild is in bounds, so no panic and no
divergence occur; the model is purely functional, so no partial-mutation
state is observable. -/
theorem C7_append_total :
    ∀ (t : MerkleTree) (k : Key), (t.append k).isSome = true := by
  intro t k
  obtain ⟨levels⟩ := t
  cases levels with
  | nil => rfl
  | cons l0 rest =>
    simp only [MerkleTree.append]
    rw [rebuildLoop_spec ((((l0 ++ [hash_key k]) :: rest).headD []).length) 1
          ((l0 ++ [hash_key k]) :: rest) (l0 ++ [hash_key k])
          List.getElem?_cons_zero (by simp) (by omega) (by simp) (by simp)]
    rfl

/-- C8: the rebuild loop terminates — one pass over a level of length at
least 2 strictly shrinks it, and the loop run with fuel at least the length
of the level below returns a result (never exhausts its fuel, never reads out
of bounds). -/
theorem C8_rebuild_terminates :
    (∀ L : List Hash, 2 ≤ L.length → (buildNext L).length < L.length) ∧
    (∀ (fuel levelIndex : Nat) (levels : List (List Hash))
        (below : List Hash),
      levels[levelIndex - 1]? = some below → below ≠ [] →
      1 ≤ levelIndex → levelIndex ≤ levels.length → below.length ≤ fuel →
      (rebuildLoop fuel levels levelIndex).isSome = true) := by
  constructor
  · intro L h2
    rw [buildNext_length]
    omega
  · intro fuel levelIndex levels below hread hne h1 hle hfuel
    rw [rebuildLoop_spec fuel levelIndex levels below hread hne h1 hle hfuel]
    rfl

/-- C8 witness: the strict shrink and the success of the loop instantiated at a
concrete two-leaf level. -/
theorem C8_witness :
    (2 ≤ ([Hash.ofKey 0, Hash.ofKey 1] : List Hash).length ∧
      (buildNext [Hash.ofKey 0, Hash.ofKey 1]).length <
        ([Hash.ofKey 0, Hash.ofKey 1] : List Hash).length) ∧
    (([[Hash.ofKey 0, Hash.ofKey 1]] : List (List Hash))[1 - 1]? =
        some [Hash.ofKey 0, Hash.ofKey 1] ∧
      (rebuildLoop 2 [[Hash.ofKey 0, Hash.ofKey 1]] 1).isSome = true) :=
  ⟨⟨by decide,
      C8_rebuild_terminates.1 [Hash.ofKey 0, Hash.ofKey 1] (by decide)⟩,
    ⟨by decide,
      C8_rebuild_terminates.2 2 1 [[Hash.ofKey 0, Hash.ofKey 1]]
        [Hash.ofKey 0, Hash.ofKey 1] (by decide) (by decide) (by decide)
        (by decide) (by decide)⟩⟩

/-- C9: `root` is a pure read — any number of consecutive `root` calls
without an intervening `append` all return the same value (the single root
value, replicated) and leave the tree state unchanged. -/
theorem C9_root_pure (t : MerkleTree) (n : Nat) :
    (rootCalls t n).1 = List.replicate n t.root ∧ (rootCalls t n).2 = t := by
  induction n with
  | zero => exact ⟨rfl, rfl⟩
  | succ n ih =>
    constructor
    · show t.root :: (rootCalls t n).1 = List.replicate (n + 1) t.root
      rw [List.replicate_succ, ih.1]
    · exact ih.2

/-- C10: incremental maintenance equals batch reconstruction — appending any
key sequence one by one to a new tree yields exactly the level list rebuilt
from scratch from the leaf digests (whose level 0 is the digests of the keys
in append order, each further level the pairwise rebuild of the one below). -/
theorem C10_incremental_eq_batch :
    (∀ keys : List Key,
      appendAll MerkleTree.new keys = some ⟨specLevels keys⟩) ∧
    (∀ keys : List Key, keys ≠ [] →
      (specLevels keys).head? = some (keys.map hash_key)) := by
  refine ⟨appendAll_new_eq, ?_⟩
  intro keys hne
  obtain ⟨k, ks, rfl⟩ := List.exists_cons_of_ne_nil hne
  show (buildLevels ((k :: ks).map hash_key)).head? = _
  obtain ⟨rest, hrest⟩ := buildLevels_cons ((k :: ks).map hash_key)
  rw [hrest]
  rfl

/-- C10 witness: the refinement instantiated at the concrete key sequence
`[5]`. -/
theorem C10_witness :
    ([5] : List Key) ≠ [] ∧
    appendAll MerkleTree.new [5] = some ⟨specLevels [5]⟩ ∧
    (specLevels [5]).head? = some ([5].map hash_key) :=
  ⟨by decide, C10_incremental_eq_batch.1 [5],
    C10_incremental_eq_batch.2 [5] (by decide)⟩
